import Mathlib

/-!
# Tag routes of the memos server (`server/tag.go`)

A shallow embedding of `server/tag.go`: the tag extractor
`findTagListFromMemoContent`, the activity helper `createTagCreateActivity`
and the four handlers registered by `registerTagRoutes`, followed by the
properties of the specification that concern them.

Conventions of the embedding.

* A Go `string` is a Lean `String`. Go compares strings byte by byte; on valid
  UTF-8 that is the order of the code points, which is the lexicographic order
  of `String.toList`.
* A Go `error` that may be `nil` is an `Option Error`; a Go pointer that may be
  `nil` is an `Option`.
* `s.Store` is a record of functions over an explicit store state `σ`. The
  calls that write (`UpsertTag`, `DeleteTag`, `CreateActivity`) return the next
  state, the queries (`FindTagList`, `FindMemoList`) read the state.
* A handler takes the session user and the outcome of decoding the request body
  and returns what it answers: a JSON response or an `echo.HTTPError`.
-/

namespace Memos

/-! ## Data model (package `api`, as far as `tag.go` uses it) -/

/-- The session user, `api.User`; the handlers read only its `ID`. -/
structure User where
  ID : Int
  deriving DecidableEq, Repr

/-- A stored tag, `api.Tag`. -/
structure Tag where
  Name : String
  CreatorID : Int
  deriving DecidableEq, Repr

/-- The request struct of `POST /tag`, `api.TagUpsert`. -/
structure TagUpsert where
  Name : String
  CreatorID : Int
  deriving DecidableEq, Repr

/-- The query struct `api.TagFind`. -/
structure TagFind where
  CreatorID : Int
  deriving DecidableEq, Repr

/-- The request struct of `POST /tag/delete`, `api.TagDelete`. -/
structure TagDelete where
  Name : String
  CreatorID : Int
  deriving DecidableEq, Repr

/-- Row status of a memo, `api.RowStatus`; `tag.go` names only `api.Normal`. -/
inductive RowStatus where
  | Normal
  | Archived
  deriving DecidableEq, Repr

/-- A memo, `api.Memo`, with the fields the memo query filters on and the
content the suggestion handler reads. -/
structure Memo where
  CreatorID : Int
  RowStatus : RowStatus
  Content : String
  deriving DecidableEq, Repr

/-- The query struct `api.MemoFind`; a `nil` pointer field is `none`. -/
structure MemoFind where
  CreatorID : Option Int
  ContentSearch : Option String
  RowStatus : Option RowStatus
  deriving DecidableEq, Repr

/-- Activity types of package `api`; `tag.go` names only `ActivityTagCreate`. -/
inductive ActivityType where
  | ActivityTagCreate
  | ActivityOther
  deriving DecidableEq, Repr

/-- Activity levels of package `api`; `tag.go` names only `ActivityInfo`. -/
inductive ActivityLevel where
  | ActivityInfo
  | ActivityWarn
  | ActivityError
  deriving DecidableEq, Repr

/-- The payload struct `api.ActivityTagCreatePayload`. -/
structure ActivityTagCreatePayload where
  TagName : String
  deriving DecidableEq, Repr

/-- The struct `api.ActivityCreate` handed to `Store.CreateActivity`. -/
structure ActivityCreate where
  CreatorID : Int
  Typ : ActivityType
  Level : ActivityLevel
  Payload : String
  deriving DecidableEq, Repr

/-- A stored activity, `api.Activity`. -/
structure Activity where
  CreatorID : Int
  Typ : ActivityType
  Level : ActivityLevel
  Payload : String
  deriving DecidableEq, Repr

/-! ## Errors -/

/-- Modelled from the spec: the error codes of package `common`, which lies
outside `tag.go`. The spec only says that not-found is signalled distinctly
from other failures; `tag.go` compares against `common.NotFound` alone. -/
inductive Code where
  | Internal
  | NotAuthorized
  | Invalid
  | NotFound
  | Conflict
  | NotImplemented
  deriving DecidableEq, Repr

/-- A non-nil Go `error`: its code (what `common.ErrorCode` reports) and its
message. -/
structure Error where
  code : Code
  msg : String
  deriving DecidableEq, Repr

/-- The function `common.ErrorCode` on a non-nil error. -/
def ErrorCode (err : Error) : Code := err.code

/-- The function `errors.Wrap` of `github.com/pkg/errors`: it annotates `err`
with a message and, as that package documents, returns `nil` when `err` is
`nil`. -/
def Wrap (err : Option Error) (message : String) : Option Error :=
  match err with
  | none => none
  | some e => some { e with msg := message ++ ": " ++ e.msg }

/-! ## Responses -/

/-- The JSON values the handlers of `tag.go` send. -/
inductive Json where
  | bool (b : Bool)
  | str (s : String)
  | strs (l : List String)
  | obj (key : String) (value : Json)
  deriving DecidableEq, Repr

/-- Modelled from the spec: `composeResponse` is declared elsewhere in package
`server`; the spec gives the shape of what it builds, the envelope
`{data: ...}` around the value. -/
def composeResponse (data : Json) : Json := Json.obj "data" data

/-- What a handler returns: `c.JSON(status, body)`, or an `echo.HTTPError`
with its status, message and the internal error set on it. -/
inductive Response where
  | json (status : Nat) (body : Json)
  | httpError (status : Nat) (message : String) (internal : Option Error)
  deriving DecidableEq, Repr

/-- The HTTP status of a response. -/
def Response.status : Response → Nat
  | .json st _ => st
  | .httpError st _ _ => st

def StatusOK : Nat := 200
def StatusBadRequest : Nat := 400
def StatusNotFound : Nat := 404
def StatusInternalServerError : Nat := 500

/-! ## The store -/

/-- The persistence interface `s.Store`, over a store state `σ`. `UpsertTag`
yields a tag or an error; `DeleteTag` yields an error or `nil`;
`CreateActivity` yields the Go pair `(*api.Activity, error)`, either half of
which may be `nil`. -/
structure Store (σ : Type) where
  UpsertTag : σ → TagUpsert → Except Error Tag × σ
  FindTagList : σ → TagFind → Except Error (List Tag)
  FindMemoList : σ → MemoFind → Except Error (List Memo)
  DeleteTag : σ → TagDelete → Option Error × σ
  CreateActivity : σ → ActivityCreate → (Option Activity × Option Error) × σ

/-! ## Strings, sets of strings, sorting -/

/-- Go's `<=` on strings: lexicographic on the characters. -/
def strLE (a b : String) : Prop := a.toList ≤ b.toList

instance strLE.decidable : DecidableRel strLE :=
  fun a b => inferInstanceAs (Decidable (a.toList ≤ b.toList))

/-- The call `sort.Strings`: sorts into increasing order. -/
def sortStrings (l : List String) : List String := l.insertionSort strLE

/-- The statement `tagMapSet[k] = true` on a `map[string]bool` used as a set,
the map being represented by its keys, each once. -/
def mapSetInsert (m : List String) (k : String) : List String :=
  if k ∈ m then m else m ++ [k]

/-- The call `slices.Contains`. -/
def Contains (l : List String) (x : String) : Bool := l.elem x

/-! ## The tag extractor -/

/-- The class `\s` of Go's `regexp` (RE2 syntax): `[\t\n\f\r ]`. -/
def isSpace (c : Char) : Bool :=
  c = '\t' || c = '\n' || c = '\x0c' || c = '\r' || c = ' '

/-- The class `[^\s#]` of `tagRegexp`. -/
def isTagChar (c : Char) : Bool := !isSpace c && c != '#'

/-- The capture groups of the successive matches of `tagRegexp`, that is
`#([^\s#]+)`, scanning from the left: at a `#` followed by a non-empty greedy
run of `[^\s#]` the run is captured and the scan resumes after the match;
anywhere else the scan moves one character on. `fuel` bounds the number of
steps. -/
def findAllFrom : Nat → List Char → List (List Char)
  | 0, _ => []
  | _ + 1, [] => []
  | fuel + 1, c :: rest =>
    if c = '#' ∧ rest.takeWhile isTagChar ≠ [] then
      rest.takeWhile isTagChar :: findAllFrom fuel (rest.dropWhile isTagChar)
    else
      findAllFrom fuel rest

/-- The call `tagRegexp.FindAllStringSubmatch(memoContent, -1)`, each match
reduced to its element `v[1]`. Every step consumes a character, so the length
of the input is enough fuel. -/
def FindAllStringSubmatch (memoContent : String) : List String :=
  (findAllFrom memoContent.toList.length memoContent.toList).map String.mk

/-- The function `findTagListFromMemoContent`. -/
def findTagListFromMemoContent (memoContent : String) : List String :=
  let matches_ := FindAllStringSubmatch memoContent
  let tagMapSet := matches_.foldl (fun m tagName => mapSetInsert m tagName) []
  let tagList := tagMapSet.foldl (fun l tag => l ++ [tag]) []
  sortStrings tagList

/-! ## The activity helper and the handlers -/

variable {σ : Type}

/-- The method `createTagCreateActivity`. `marshal` is `json.Marshal` on the
payload struct. The result is the error returned (`none` for `nil`) and the
next store state. -/
def createTagCreateActivity (st : Store σ)
    (marshal : ActivityTagCreatePayload → Except Error String)
    (tag : Tag) (s : σ) : Option Error × σ :=
  let payload : ActivityTagCreatePayload := { TagName := tag.Name }
  match marshal payload with
  | .error err => (Wrap (some err) "failed to marshal activity payload", s)
  | .ok payloadBytes =>
    match st.CreateActivity s
        { CreatorID := tag.CreatorID
          Typ := ActivityType.ActivityTagCreate
          Level := ActivityLevel.ActivityInfo
          Payload := payloadBytes } with
    | ((activity, err), s1) =>
      if err ≠ none ∨ activity = none then
        (Wrap err "failed to create activity", s1)
      else
        (err, s1)

/-- The handler of `POST /tag`. `decoded` is the outcome of
`json.NewDecoder(c.Request().Body).Decode(tagUpsert)`: the decoding error, or
the request struct as the decoder filled it. -/
def postTag (st : Store σ)
    (marshal : ActivityTagCreatePayload → Except Error String)
    (user : User) (decoded : Except Error TagUpsert) (s : σ) : Response × σ :=
  match decoded with
  | .error err => (.httpError StatusBadRequest "Malformed post tag request" (some err), s)
  | .ok tagUpsert =>
    if tagUpsert.Name = "" then
      (.httpError StatusBadRequest "Tag name shouldn't be empty" none, s)
    else
      let tagUpsert := { tagUpsert with CreatorID := user.ID }
      match st.UpsertTag s tagUpsert with
      | (.error err, s1) =>
        (.httpError StatusInternalServerError "Failed to upsert tag" (some err), s1)
      | (.ok tag, s1) =>
        match createTagCreateActivity st marshal tag s1 with
        | (some err, s2) =>
          (.httpError StatusInternalServerError "Failed to create activity" (some err), s2)
        | (none, s2) => (.json StatusOK (composeResponse (.str tag.Name)), s2)

/-- The loop `for _, tag := range tagList { tagNameList = append(tagNameList,
tag.Name) }` starting from `[]string{}`. -/
def tagNames (tagList : List Tag) : List String :=
  tagList.foldl (fun tagNameList tag => tagNameList ++ [tag.Name]) []

/-- The handler of `GET /tag`. -/
def getTag (st : Store σ) (user : User) (s : σ) : Response :=
  let tagFind : TagFind := { CreatorID := user.ID }
  match st.FindTagList s tagFind with
  | .error err =>
    .httpError StatusInternalServerError "Failed to find tag list" (some err)
  | .ok tagList => .json StatusOK (composeResponse (.strs (tagNames tagList)))

/-- The two nested loops of `GET /tag/suggestion` that fill `tagMapSet`, then
the loop that lists its keys and the call of `sort.Strings`. -/
def suggestTagList (memoList : List Memo) (existTagList : List Tag) : List String :=
  let tagNameList := tagNames existTagList
  let tagMapSet := memoList.foldl
    (fun m memo =>
      (findTagListFromMemoContent memo.Content).foldl
        (fun m tag => if !Contains tagNameList tag then mapSetInsert m tag else m) m)
    []
  let tagList := tagMapSet.foldl (fun l tag => l ++ [tag]) []
  sortStrings tagList

/-- The handler of `GET /tag/suggestion`. -/
def getTagSuggestion (st : Store σ) (user : User) (s : σ) : Response :=
  let memoFind : MemoFind :=
    { CreatorID := some user.ID
      ContentSearch := some "#"
      RowStatus := some RowStatus.Normal }
  match st.FindMemoList s memoFind with
  | .error err =>
    .httpError StatusInternalServerError "Failed to find memo list" (some err)
  | .ok memoList =>
    let tagFind : TagFind := { CreatorID := user.ID }
    match st.FindTagList s tagFind with
    | .error err =>
      .httpError StatusInternalServerError "Failed to find tag list" (some err)
    | .ok existTagList =>
      .json StatusOK (composeResponse (.strs (suggestTagList memoList existTagList)))

/-- The handler of `POST /tag/delete`. `decoded` is the outcome of decoding
the request body into an `api.TagDelete`. -/
def postTagDelete (st : Store σ) (user : User) (decoded : Except Error TagDelete)
    (s : σ) : Response × σ :=
  match decoded with
  | .error err => (.httpError StatusBadRequest "Malformed post tag request" (some err), s)
  | .ok tagDelete =>
    if tagDelete.Name = "" then
      (.httpError StatusBadRequest "Tag name shouldn't be empty" none, s)
    else
      let tagDelete := { tagDelete with CreatorID := user.ID }
      match st.DeleteTag s tagDelete with
      | (some err, s1) =>
        if ErrorCode err = Code.NotFound then
          (.httpError StatusNotFound ("Tag name not found: " ++ tagDelete.Name) none, s1)
        else
          (.httpError StatusInternalServerError
            ("Failed to delete tag name: " ++ tagDelete.Name) (some err), s1)
      | (none, s1) => (.json StatusOK (.bool true), s1)

/-! ## An in-memory store

A store kept in memory, on which the handlers can be run: the tag table, the
memos, the activities logged, and the list of the calls received. -/

/-- A call received by the store. -/
inductive StoreCall where
  | upsertTag (arg : TagUpsert)
  | findTagList (arg : TagFind)
  | findMemoList (arg : MemoFind)
  | deleteTag (arg : TagDelete)
  | createActivity (arg : ActivityCreate)
  deriving DecidableEq, Repr

/-- The state of the in-memory store. `calls` lists the writing calls
received, oldest first. -/
structure MemState where
  tags : List Tag
  memos : List Memo
  activities : List Activity
  calls : List StoreCall
  deriving DecidableEq, Repr

/-- Whether a stored tag is the one a delete request names. -/
def tagMatches (d : TagDelete) (t : Tag) : Bool :=
  t.Name = d.Name && t.CreatorID = d.CreatorID

/-- The in-memory store. Upsert inserts the (name, creator) pair unless it is
present; find returns the creator's tags in table order; the memo query
returns the memos that pass each filter that is set; delete removes the
(name, creator) tag and reports not-found when there is none; creating an
activity appends it. -/
def memStore : Store MemState where
  UpsertTag s u :=
    let tag : Tag := { Name := u.Name, CreatorID := u.CreatorID }
    (.ok tag,
      { s with
        tags := if tag ∈ s.tags then s.tags else s.tags ++ [tag]
        calls := s.calls ++ [.upsertTag u] })
  FindTagList s f := .ok (s.tags.filter (fun t => t.CreatorID = f.CreatorID))
  FindMemoList s f :=
    .ok (s.memos.filter (fun m =>
      (match f.CreatorID with
        | some i => decide (m.CreatorID = i)
        | none => true) &&
      (match f.RowStatus with
        | some r => decide (m.RowStatus = r)
        | none => true) &&
      (match f.ContentSearch with
        | some c => decide (c.toList <:+: m.Content.toList)
        | none => true)))
  DeleteTag s d :=
    if s.tags.any (tagMatches d) then
      (none,
        { s with
          tags := s.tags.filter (fun t => !tagMatches d t)
          calls := s.calls ++ [.deleteTag d] })
    else
      (some { code := Code.NotFound, msg := "tag not found" },
        { s with calls := s.calls ++ [.deleteTag d] })
  CreateActivity s a :=
    let activity : Activity :=
      { CreatorID := a.CreatorID, Typ := a.Typ, Level := a.Level, Payload := a.Payload }
    ((some activity, none),
      { s with
        activities := s.activities ++ [activity]
        calls := s.calls ++ [.createActivity a] })

/-- The in-memory store with a `CreateActivity` that returns the pair
`(nil, nil)`: no activity and no error. -/
def nilActivityStore : Store MemState :=
  { memStore with CreateActivity := fun s _ => ((none, none), s) }

/-- A marshaller for the payload struct that always succeeds. It writes the
tag name between quotes as it is, which is what `json.Marshal` gives for a
name that needs no escaping. -/
def marshalPayload (p : ActivityTagCreatePayload) : Except Error String :=
  .ok ("\x7b\"tagName\":\"" ++ p.TagName ++ "\"\x7d")

/-- An empty in-memory store. -/
def emptyState : MemState := { tags := [], memos := [], activities := [], calls := [] }

/-- A populated in-memory store: two users, tags of both, memos of both. -/
def demoState : MemState :=
  { tags := [⟨"c", 1⟩, ⟨"z", 2⟩, ⟨"work", 1⟩]
    memos :=
      [⟨1, RowStatus.Normal, "x #b #a"⟩, ⟨1, RowStatus.Normal, "#c #a and #work"⟩,
        ⟨2, RowStatus.Normal, "#q"⟩, ⟨1, RowStatus.Archived, "#r"⟩,
        ⟨1, RowStatus.Normal, "plain"⟩]
    activities := []
    calls := [] }

/-! ## The store contract of the delete claim -/

/-- The caller `uid` owns a tag named `name` in state `s`: the store's
`FindTagList` for that creator returns a tag of that name. -/
def ownsTag (st : Store σ) (s : σ) (uid : Int) (name : String) : Prop :=
  ∃ tagList, st.FindTagList s ⟨uid⟩ = .ok tagList ∧ name ∈ tagList.map Tag.Name

/-- Modelled from the spec: the behaviour of the store's `DeleteTag`, which
lies outside `tag.go`. It deletes by (name, creatorID): it reports not-found
when the creator owns no tag of the name, and otherwise it succeeds and the
creator no longer owns a tag of the name. -/
def DeleteTagContract (st : Store σ) : Prop :=
  ∀ (s : σ) (d : TagDelete),
    (¬ ownsTag st s d.CreatorID d.Name →
      ∃ err, (st.DeleteTag s d).1 = some err ∧ ErrorCode err = Code.NotFound) ∧
    (ownsTag st s d.CreatorID d.Name →
      (st.DeleteTag s d).1 = none ∧ ¬ ownsTag st (st.DeleteTag s d).2 d.CreatorID d.Name)

instance strLE.isTotal : IsTotal String strLE :=
  ⟨fun a b => le_total a.toList b.toList⟩

instance strLE.isTrans : IsTrans String strLE :=
  ⟨fun _ _ _ hab hbc => le_trans (α := List Char) hab hbc⟩

instance strLE.isAntisymm : IsAntisymm String strLE :=
  ⟨fun _ _ hab hba => String.toList_inj.mp (le_antisymm (α := List Char) hab hba)⟩

/-! ## Lemmas on the list operations -/

theorem strLE_iff_le (a b : String) : strLE a b ↔ a ≤ b :=
  String.le_iff_toList_le.symm

theorem foldl_append_singleton {α β : Type} (f : α → β) (l : List α) (init : List β) :
    l.foldl (fun acc x => acc ++ [f x]) init = init ++ l.map f := by
  induction l generalizing init with
  | nil => simp
  | cons a l ih => simp [ih]

theorem tagNames_eq_map (tagList : List Tag) : tagNames tagList = tagList.map Tag.Name := by
  simp [tagNames, foldl_append_singleton]

theorem mem_mapSetInsert (m : List String) (k x : String) :
    x ∈ mapSetInsert m k ↔ x ∈ m ∨ x = k := by
  unfold mapSetInsert
  split
  · constructor
    · intro h; exact Or.inl h
    · rintro (h | rfl)
      · exact h
      · assumption
  · simp

theorem nodup_mapSetInsert (m : List String) (k : String) (h : m.Nodup) :
    (mapSetInsert m k).Nodup := by
  unfold mapSetInsert
  split
  · exact h
  · rename_i hk
    exact List.Nodup.append h (List.nodup_singleton k) (by simpa using hk)

/-- Filling a set from a list, keeping the elements that pass `keep`. -/
theorem mem_foldl_insert_if (keep : String → Bool) (l m : List String) (x : String) :
    x ∈ l.foldl (fun m t => if keep t then mapSetInsert m t else m) m ↔
      x ∈ m ∨ (x ∈ l ∧ keep x = true) := by
  induction l generalizing m with
  | nil => simp
  | cons a l ih =>
    rw [List.foldl_cons, ih]
    by_cases ha : keep a = true
    · simp only [ha, if_true, mem_mapSetInsert, List.mem_cons]
      constructor
      · rintro ((h | rfl) | ⟨h, hk⟩)
        · exact Or.inl h
        · exact Or.inr ⟨Or.inl rfl, ha⟩
        · exact Or.inr ⟨Or.inr h, hk⟩
      · rintro (h | ⟨rfl | h, hk⟩)
        · exact Or.inl (Or.inl h)
        · exact Or.inl (Or.inr rfl)
        · exact Or.inr ⟨h, hk⟩
    · simp only [ha, List.mem_cons]
      constructor
      · rintro (h | ⟨h, hk⟩)
        · exact Or.inl h
        · exact Or.inr ⟨Or.inr h, hk⟩
      · rintro (h | ⟨rfl | h, hk⟩)
        · exact Or.inl h
        · exact absurd hk ha
        · exact Or.inr ⟨h, hk⟩

theorem nodup_foldl_insert_if (keep : String → Bool) (l m : List String) (h : m.Nodup) :
    (l.foldl (fun m t => if keep t then mapSetInsert m t else m) m).Nodup := by
  induction l generalizing m with
  | nil => exact h
  | cons a l ih =>
    rw [List.foldl_cons]
    apply ih
    split
    · exact nodup_mapSetInsert m a h
    · exact h

theorem mem_foldl_mapSetInsert (l m : List String) (x : String) :
    x ∈ l.foldl (fun m t => mapSetInsert m t) m ↔ x ∈ m ∨ x ∈ l := by
  have h := mem_foldl_insert_if (fun _ => true) l m x
  simpa using h

theorem nodup_foldl_mapSetInsert (l m : List String) (h : m.Nodup) :
    (l.foldl (fun m t => mapSetInsert m t) m).Nodup := by
  have h := nodup_foldl_insert_if (fun _ => true) l m h
  simpa using h

/-! ## Lemmas on `sort.Strings` -/

theorem sortStrings_perm (l : List String) : (sortStrings l).Perm l :=
  List.perm_insertionSort strLE l

theorem mem_sortStrings (l : List String) (x : String) : x ∈ sortStrings l ↔ x ∈ l :=
  (sortStrings_perm l).mem_iff

theorem sortStrings_sorted (l : List String) : (sortStrings l).Sorted strLE :=
  List.sorted_insertionSort strLE l

/-- The order in which the keys of a map are listed does not show in the
sorted result. -/
theorem sortStrings_eq_of_perm {l₁ l₂ : List String} (h : l₁.Perm l₂) :
    sortStrings l₁ = sortStrings l₂ :=
  List.eq_of_perm_of_sorted
    (((sortStrings_perm l₁).trans h).trans (sortStrings_perm l₂).symm)
    (sortStrings_sorted l₁) (sortStrings_sorted l₂)

theorem sortStrings_strict (l : List String) (h : l.Nodup) :
    (sortStrings l).Sorted (· < ·) := by
  have hs : (sortStrings l).Sorted (· ≤ ·) :=
    (sortStrings_sorted l).imp (fun {a b} hab => (strLE_iff_le a b).mp hab)
  exact hs.lt_of_le ((sortStrings_perm l).nodup_iff.mpr h)

/-- A strictly increasing list is determined by its elements. -/
theorem strict_sorted_ext {l₁ l₂ : List String} (h₁ : l₁.Sorted (· < ·))
    (h₂ : l₂.Sorted (· < ·)) (h : ∀ x, x ∈ l₁ ↔ x ∈ l₂) : l₁ = l₂ :=
  List.eq_of_perm_of_sorted ((List.perm_ext_iff_of_nodup h₁.nodup h₂.nodup).mpr h) h₁ h₂

/-! ## The matches of `tagRegexp` -/

theorem isTagChar_iff (x : Char) : isTagChar x = true ↔ isSpace x = false ∧ x ≠ '#' := by
  simp [isTagChar]

theorem isTagChar_hash : isTagChar '#' = false := by decide

/-- A character that ends a run of `[^\s#]` is where `dropWhile` stops at the
latest. -/
theorem dropWhile_append_stop (p : Char → Bool) (l tl : List Char) (x : Char)
    (hx : p x = false) :
    (l ++ x :: tl).dropWhile p = l.dropWhile p ++ x :: tl := by
  induction l with
  | nil => simp [List.dropWhile, hx]
  | cons a l ih =>
    by_cases ha : p a = true
    · simp [List.dropWhile, ha, ih]
    · simp [List.dropWhile, ha]

/-- A run of `[^\s#]` followed by the end of the input or by a character
outside the class is what the greedy `[^\s#]+` takes. -/
theorem takeWhile_run (t post : List Char) (ht : ∀ x ∈ t, isTagChar x = true)
    (hpost : post = [] ∨ ∃ d rest, post = d :: rest ∧ isTagChar d = false) :
    (t ++ post).takeWhile isTagChar = t := by
  rw [List.takeWhile_append_of_pos ht]
  rcases hpost with rfl | ⟨d, rest, rfl, hd⟩
  · simp
  · simp [List.takeWhile, hd]

/-- What follows the greedy run is the end of the input or a character outside
the class. -/
theorem dropWhile_boundary (l : List Char) :
    l.dropWhile isTagChar = [] ∨
      ∃ d rest, l.dropWhile isTagChar = d :: rest ∧ isTagChar d = false := by
  induction l with
  | nil => simp
  | cons a l ih =>
    by_cases ha : isTagChar a = true
    · simpa [List.dropWhile, ha] using ih
    · right
      exact ⟨a, l, by simp [List.dropWhile, ha], by simpa using ha⟩

/-- The captures of `findAllFrom`, with enough fuel, are the non-empty runs of
`[^\s#]` that stand right after a `#` and end at the end of the input or at a
character outside the class. -/
theorem mem_findAllFrom (fuel : Nat) (l t : List Char) (hfuel : l.length ≤ fuel) :
    t ∈ findAllFrom fuel l ↔
      t ≠ [] ∧ ∃ pre post, l = pre ++ '#' :: (t ++ post) ∧
        (∀ x ∈ t, isTagChar x = true) ∧
        (post = [] ∨ ∃ d rest, post = d :: rest ∧ isTagChar d = false) := by
  induction fuel generalizing l with
  | zero =>
    have hl : l = [] := List.length_eq_zero.mp (Nat.le_zero.mp hfuel)
    subst hl
    simp [findAllFrom]
  | succ fuel ih =>
    cases l with
    | nil => simp [findAllFrom]
    | cons c rest =>
      have hrest : rest.length ≤ fuel := by simpa using hfuel
      have hdrop : (rest.dropWhile isTagChar).length ≤ fuel :=
        le_trans (List.dropWhile_sublist _).length_le hrest
      by_cases hm : c = '#' ∧ rest.takeWhile isTagChar ≠ []
      · obtain ⟨hc, hrun⟩ := hm
        subst hc
        simp only [findAllFrom, hrun, ne_eq, not_false_eq_true, and_self, if_true,
          List.mem_cons]
        constructor
        · rintro (rfl | h)
          · refine ⟨hrun, [], rest.dropWhile isTagChar, ?_, ?_, dropWhile_boundary rest⟩
            · simp
            · intro x hx
              exact List.mem_takeWhile_imp hx
          · obtain ⟨hne, pre, post, hl, ht, hpost⟩ := (ih _ hdrop).mp h
            refine ⟨hne, '#' :: rest.takeWhile isTagChar ++ pre, post, ?_, ht, hpost⟩
            simp only [List.cons_append, List.append_assoc]
            rw [← hl, List.takeWhile_append_dropWhile]
        · rintro ⟨hne, pre, post, hl, ht, hpost⟩
          cases pre with
          | nil =>
            left
            simp only [List.nil_append, List.cons.injEq, true_and] at hl
            rw [hl, takeWhile_run t post ht hpost]
          | cons a pre =>
            right
            simp only [List.cons_append, List.cons.injEq] at hl
            obtain ⟨-, hl⟩ := hl
            refine (ih _ hdrop).mpr ⟨hne, pre.dropWhile isTagChar, post, ?_, ht, hpost⟩
            rw [hl, dropWhile_append_stop isTagChar pre (t ++ post) '#' isTagChar_hash]
      · have hstep : findAllFrom (fuel + 1) (c :: rest) = findAllFrom fuel rest := by
          simp only [findAllFrom]
          rw [if_neg hm]
        rw [hstep, ih rest hrest]
        constructor
        · rintro ⟨hne, pre, post, hl, ht, hpost⟩
          exact ⟨hne, c :: pre, post, by simp [hl], ht, hpost⟩
        · rintro ⟨hne, pre, post, hl, ht, hpost⟩
          cases pre with
          | nil =>
            exfalso
            simp only [List.nil_append, List.cons.injEq] at hl
            obtain ⟨hc, hl⟩ := hl
            apply hm
            refine ⟨hc, ?_⟩
            rw [hl, takeWhile_run t post ht hpost]
            exact hne
          | cons a pre =>
            simp only [List.cons_append, List.cons.injEq] at hl
            exact ⟨hne, pre, post, hl.2, ht, hpost⟩

/-- Any two amounts of fuel that reach the length of the input give the same
matches. -/
theorem findAllFrom_fuel (fuel₁ fuel₂ : Nat) (l : List Char) (h₁ : l.length ≤ fuel₁)
    (h₂ : l.length ≤ fuel₂) : findAllFrom fuel₁ l = findAllFrom fuel₂ l := by
  induction fuel₁ generalizing fuel₂ l with
  | zero =>
    have hl : l = [] := List.length_eq_zero.mp (Nat.le_zero.mp h₁)
    subst hl
    cases fuel₂ <;> rfl
  | succ fuel₁ ih =>
    cases l with
    | nil => cases fuel₂ <;> rfl
    | cons c rest =>
      cases fuel₂ with
      | zero => simp at h₂
      | succ fuel₂ =>
        have hr₁ : rest.length ≤ fuel₁ := by simpa using h₁
        have hr₂ : rest.length ≤ fuel₂ := by simpa using h₂
        have hdrop : (rest.dropWhile isTagChar).length ≤ rest.length :=
          (List.dropWhile_sublist _).length_le
        simp only [findAllFrom]
        rw [ih fuel₂ rest hr₁ hr₂,
          ih fuel₂ _ (le_trans hdrop hr₁) (le_trans hdrop hr₂)]

theorem mem_FindAllStringSubmatch (c t : String) :
    t ∈ FindAllStringSubmatch c ↔ t.toList ∈ findAllFrom c.toList.length c.toList := by
  unfold FindAllStringSubmatch
  rw [List.mem_map]
  constructor
  · rintro ⟨a, ha, rfl⟩
    exact ha
  · intro h
    exact ⟨t.toList, h, rfl⟩

theorem mem_findTagListFromMemoContent (c t : String) :
    t ∈ findTagListFromMemoContent c ↔ t ∈ FindAllStringSubmatch c := by
  unfold findTagListFromMemoContent
  simp only [mem_sortStrings]
  rw [foldl_append_singleton (fun x => x)]
  simp [mem_foldl_mapSetInsert]

theorem nodup_keys_findTagList (c : String) :
    (((FindAllStringSubmatch c).foldl (fun m tagName => mapSetInsert m tagName) []).foldl
      (fun l tag => l ++ [tag]) []).Nodup := by
  rw [foldl_append_singleton (fun x => x)]
  simpa using nodup_foldl_mapSetInsert (FindAllStringSubmatch c) [] List.nodup_nil

theorem findTagListFromMemoContent_strict (c : String) :
    (findTagListFromMemoContent c).Sorted (· < ·) :=
  sortStrings_strict _ (nodup_keys_findTagList c)

/-! ## Lemmas on the suggestion list -/

/-- The keys gathered by the two nested loops of the suggestion handler. -/
theorem mem_foldl_memos (keep : String → Bool) (memoList : List Memo) (m : List String)
    (x : String) :
    x ∈ memoList.foldl
        (fun m memo =>
          (findTagListFromMemoContent memo.Content).foldl
            (fun m t => if keep t then mapSetInsert m t else m) m) m ↔
      x ∈ m ∨ ((∃ memo ∈ memoList, x ∈ findTagListFromMemoContent memo.Content) ∧
        keep x = true) := by
  induction memoList generalizing m with
  | nil => simp
  | cons a l ih =>
    rw [List.foldl_cons, ih, mem_foldl_insert_if]
    constructor
    · rintro ((h | ⟨h, hk⟩) | ⟨⟨memo, hmemo, h⟩, hk⟩)
      · exact Or.inl h
      · exact Or.inr ⟨⟨a, List.mem_cons_self a l, h⟩, hk⟩
      · exact Or.inr ⟨⟨memo, List.mem_cons_of_mem a hmemo, h⟩, hk⟩
    · rintro (h | ⟨⟨memo, hmemo, h⟩, hk⟩)
      · exact Or.inl (Or.inl h)
      · rcases List.mem_cons.mp hmemo with rfl | hmemo
        · exact Or.inl (Or.inr ⟨h, hk⟩)
        · exact Or.inr ⟨⟨memo, hmemo, h⟩, hk⟩

theorem nodup_foldl_memos (keep : String → Bool) (memoList : List Memo) (m : List String)
    (h : m.Nodup) :
    (memoList.foldl
        (fun m memo =>
          (findTagListFromMemoContent memo.Content).foldl
            (fun m t => if keep t then mapSetInsert m t else m) m) m).Nodup := by
  induction memoList generalizing m with
  | nil => exact h
  | cons a l ih =>
    rw [List.foldl_cons]
    exact ih _ (nodup_foldl_insert_if keep _ m h)

theorem not_Contains_iff (l : List String) (x : String) :
    (!Contains l x) = true ↔ x ∉ l := by
  simp [Contains]

theorem mem_suggestTagList (memoList : List Memo) (existTagList : List Tag) (t : String) :
    t ∈ suggestTagList memoList existTagList ↔
      (∃ memo ∈ memoList, t ∈ findTagListFromMemoContent memo.Content) ∧
        ∀ tag ∈ existTagList, tag.Name ≠ t := by
  unfold suggestTagList
  simp only [mem_sortStrings]
  rw [foldl_append_singleton (fun x => x)]
  have h := mem_foldl_memos (fun t => !Contains (tagNames existTagList) t) memoList [] t
  rw [List.nil_append, List.map_id', h, not_Contains_iff, tagNames_eq_map]
  simp

theorem suggestTagList_strict (memoList : List Memo) (existTagList : List Tag) :
    (suggestTagList memoList existTagList).Sorted (· < ·) := by
  unfold suggestTagList
  apply sortStrings_strict
  rw [foldl_append_singleton (fun x => x)]
  have h := nodup_foldl_memos (fun t => !Contains (tagNames existTagList) t) memoList []
    List.nodup_nil
  simpa using h

theorem suggestTagList_perm (memoList memoList' : List Memo) (existTagList : List Tag)
    (h : memoList'.Perm memoList) :
    suggestTagList memoList' existTagList = suggestTagList memoList existTagList := by
  apply strict_sorted_ext (suggestTagList_strict _ _) (suggestTagList_strict _ _)
  intro x
  simp only [mem_suggestTagList, h.mem_iff]

/-! ## The tag extractor: claims C1 and C2 -/

/-- C1. A string `t` is in `findTagListFromMemoContent c` exactly when `t` is
non-empty, `c` contains a `#` immediately followed by `t`, no character of `t`
is whitespace (the class `\s` of the pattern) or `#`, and `t` is followed by
the end of the input, a whitespace character or `#`. -/
theorem findTagListFromMemoContent_mem_iff (c t : String) :
    t ∈ findTagListFromMemoContent c ↔
      t ≠ "" ∧ ∃ pre post : List Char,
        c.toList = pre ++ '#' :: (t.toList ++ post) ∧
        (∀ x ∈ t.toList, isSpace x = false ∧ x ≠ '#') ∧
        (post = [] ∨ ∃ d rest, post = d :: rest ∧ (isSpace d = true ∨ d = '#')) := by
  rw [mem_findTagListFromMemoContent, mem_FindAllStringSubmatch,
    mem_findAllFrom _ _ _ le_rfl]
  have hne : t.toList ≠ [] ↔ t ≠ "" := by
    apply not_congr
    show t.toList = "".toList ↔ t = ""
    exact String.toList_inj
  have hcls : ∀ d : Char, isTagChar d = false ↔ (isSpace d = true ∨ d = '#') := by
    intro d
    cases h : isSpace d <;> simp [isTagChar, h]
  simp only [hne, isTagChar_iff, hcls]

/-- C2. The list `findTagListFromMemoContent c` is in strictly ascending
lexicographic order, hence without duplicates, and on
`"hello #world #foo #world"` it is `["foo", "world"]`. -/
theorem findTagListFromMemoContent_sorted_dedup (c : String) :
    (findTagListFromMemoContent c).Sorted (· < ·) ∧
      (findTagListFromMemoContent c).Nodup ∧
      findTagListFromMemoContent "hello #world #foo #world" = ["foo", "world"] :=
  ⟨findTagListFromMemoContent_strict c, (findTagListFromMemoContent_strict c).nodup,
    by decide⟩

/-- The class `\s` of the pattern is ASCII only and leaves out the vertical
tab: neither a vertical tab nor an ideographic space ends a tag. -/
theorem findTagListFromMemoContent_other_spaces :
    findTagListFromMemoContent "#a\x0bb #c\u3000d\t#e" = ["a\x0bb", "c\u3000d", "e"] := by
  decide

/-! ## The suggestion handler: claims C3 and C4 -/

/-- C3. Whatever memo list and existing tag list the store returns for the
user, `GET /tag/suggestion` answers a list of names none of which is the name
of a tag in the existing tag list. -/
theorem getTagSuggestion_excludes_existing (st : Store σ) (user : User) (s : σ)
    (memoList : List Memo) (existTagList : List Tag)
    (hmemo : st.FindMemoList s ⟨some user.ID, some "#", some RowStatus.Normal⟩ =
      .ok memoList)
    (htag : st.FindTagList s ⟨user.ID⟩ = .ok existTagList) :
    ∃ names, getTagSuggestion st user s = .json StatusOK (composeResponse (.strs names)) ∧
      ∀ n ∈ names, ∀ tag ∈ existTagList, tag.Name ≠ n := by
  refine ⟨suggestTagList memoList existTagList, ?_, ?_⟩
  · simp only [getTagSuggestion, hmemo, htag]
  · intro n hn
    exact ((mem_suggestTagList memoList existTagList n).mp hn).2

/-- C4. Whatever memo list and existing tag list the store returns,
`GET /tag/suggestion` answers the list that is strictly ascending (sorted,
without duplicates) and whose elements are exactly the strings found by
`findTagListFromMemoContent` in some returned memo that are not the name of an
existing tag; there is one such list; and a store that returns the memos in
another order gets the same answer. -/
theorem getTagSuggestion_exact (st : Store σ) (user : User) (s : σ)
    (memoList : List Memo) (existTagList : List Tag)
    (hmemo : st.FindMemoList s ⟨some user.ID, some "#", some RowStatus.Normal⟩ =
      .ok memoList)
    (htag : st.FindTagList s ⟨user.ID⟩ = .ok existTagList) :
    ∃ names, getTagSuggestion st user s = .json StatusOK (composeResponse (.strs names)) ∧
      names.Sorted (· < ·) ∧
      (∀ t, t ∈ names ↔
        (∃ memo ∈ memoList, t ∈ findTagListFromMemoContent memo.Content) ∧
          ∀ tag ∈ existTagList, tag.Name ≠ t) ∧
      (∀ l : List String, l.Sorted (· < ·) →
        (∀ t, t ∈ l ↔
          (∃ memo ∈ memoList, t ∈ findTagListFromMemoContent memo.Content) ∧
            ∀ tag ∈ existTagList, tag.Name ≠ t) → l = names) ∧
      (∀ (s' : σ) (memoList' : List Memo),
        st.FindMemoList s' ⟨some user.ID, some "#", some RowStatus.Normal⟩ = .ok memoList' →
        st.FindTagList s' ⟨user.ID⟩ = .ok existTagList →
        memoList'.Perm memoList →
        getTagSuggestion st user s' = getTagSuggestion st user s) := by
  refine ⟨suggestTagList memoList existTagList, ?_, suggestTagList_strict _ _,
    mem_suggestTagList memoList existTagList, ?_, ?_⟩
  · simp only [getTagSuggestion, hmemo, htag]
  · intro l hl hmem
    apply strict_sorted_ext hl (suggestTagList_strict _ _)
    intro x
    rw [hmem, mem_suggestTagList]
  · intro s' memoList' hmemo' htag' hperm
    simp only [getTagSuggestion, hmemo, htag, hmemo', htag']
    rw [suggestTagList_perm memoList memoList' existTagList hperm]

/-! ## The list handler: claim C9 -/

/-- C9. For the tag list the store returns for the caller, `GET /tag` answers
the names of those tags, one for each tag and in the order of the store, and
the empty list when the store returns no tag. -/
theorem getTag_names_in_store_order (st : Store σ) (user : User) (s : σ)
    (tagList : List Tag) (htag : st.FindTagList s ⟨user.ID⟩ = .ok tagList) :
    getTag st user s = .json StatusOK (composeResponse (.strs (tagList.map Tag.Name))) ∧
      (tagList.map Tag.Name).length = tagList.length ∧
      (tagList = [] → getTag st user s = .json StatusOK (composeResponse (.strs []))) := by
  have h : getTag st user s =
      .json StatusOK (composeResponse (.strs (tagList.map Tag.Name))) := by
    simp only [getTag, htag, tagNames_eq_map]
  refine ⟨h, List.length_map _ _, ?_⟩
  intro hnil
  rw [h, hnil]
  rfl

/-! ## The create handler: claims C5 and C6 -/

/-- C5. A decoded `POST /tag` body with the empty name, whatever its creator
field and whatever the store and its state, is answered with the HTTP error
400 and the store state is returned as it was; on the in-memory store no call
is recorded and no tag or activity is added. -/
theorem postTag_empty_name_rejected (st : Store σ)
    (marshal : ActivityTagCreatePayload → Except Error String) (user : User)
    (tagUpsert : TagUpsert) (s : σ) (ms : MemState) (hname : tagUpsert.Name = "") :
    postTag st marshal user (.ok tagUpsert) s =
        (.httpError StatusBadRequest "Tag name shouldn't be empty" none, s) ∧
      (postTag st marshal user (.ok tagUpsert) s).1.status = 400 ∧
      (postTag memStore marshal user (.ok tagUpsert) ms).2 = ms := by
  simp [postTag, hname, Response.status, StatusBadRequest]

/-- C6, evaluated where it fails. When the store's `CreateActivity` returns no
activity and no error, `createTagCreateActivity` returns `nil`, because
`errors.Wrap` of a `nil` error is `nil`, and `POST /tag` answers 200 with the
tag name. -/
theorem createTagCreateActivity_nil_activity_swallowed :
    (nilActivityStore.CreateActivity emptyState
        ⟨1, ActivityType.ActivityTagCreate, ActivityLevel.ActivityInfo, "p"⟩).1 =
        (none, none) ∧
      (createTagCreateActivity nilActivityStore marshalPayload ⟨"a", 1⟩ emptyState).1 = none ∧
      (postTag nilActivityStore marshalPayload ⟨1⟩ (.ok ⟨"a", 0⟩) emptyState).1 =
        .json StatusOK (composeResponse (.str "a")) := by
  decide

/-- The part of C6 that holds: an error returned by `CreateActivity` makes
`createTagCreateActivity` return an error and `POST /tag` answer 500. -/
theorem postTag_activity_error (st : Store σ)
    (marshal : ActivityTagCreatePayload → Except Error String) (user : User)
    (tagUpsert : TagUpsert) (s s1 s2 : σ) (tag : Tag) (payload : String)
    (activity : Option Activity) (err : Error)
    (hname : tagUpsert.Name ≠ "")
    (hupsert : st.UpsertTag s ⟨tagUpsert.Name, user.ID⟩ = (.ok tag, s1))
    (hmarshal : marshal ⟨tag.Name⟩ = .ok payload)
    (hact : st.CreateActivity s1
      ⟨tag.CreatorID, ActivityType.ActivityTagCreate, ActivityLevel.ActivityInfo, payload⟩ =
        ((activity, some err), s2)) :
    (createTagCreateActivity st marshal tag s1).1 ≠ none ∧
      (postTag st marshal user (.ok tagUpsert) s).1.status = 500 := by
  simp [postTag, createTagCreateActivity, hname, hupsert, hmarshal, hact, Wrap,
    Response.status, StatusInternalServerError]

/-! ## The delete handler: claims C7 and C8 -/

/-- C7, evaluated where it fails. `POST /tag/delete` never answers with the
envelope `composeResponse(true)`; on a delete that succeeds it answers 200
with the bare JSON value `true`. -/
theorem postTagDelete_success_body_bare :
    (postTagDelete memStore ⟨1⟩ (.ok ⟨"work", 0⟩) demoState).1 =
        .json StatusOK (.bool true) ∧
      (postTagDelete memStore ⟨1⟩ (.ok ⟨"work", 0⟩) demoState).1 ≠
        .json StatusOK (composeResponse (.bool true)) ∧
      (postTag memStore marshalPayload ⟨1⟩ (.ok ⟨"work", 0⟩) demoState).1 =
        .json StatusOK (composeResponse (.str "work")) := by
  decide

theorem ownsTag_memStore (s : MemState) (uid : Int) (name : String) :
    ownsTag memStore s uid name ↔ ∃ t ∈ s.tags, t.CreatorID = uid ∧ t.Name = name := by
  unfold ownsTag
  simp only [memStore]
  constructor
  · rintro ⟨tagList, h, hmem⟩
    injection h with h
    subst h
    obtain ⟨t, ht, rfl⟩ := List.mem_map.mp hmem
    rw [List.mem_filter] at ht
    exact ⟨t, ht.1, by simpa using ht.2, rfl⟩
  · rintro ⟨t, ht, hc, rfl⟩
    refine ⟨_, rfl, List.mem_map.mpr ⟨t, ?_, rfl⟩⟩
    rw [List.mem_filter]
    exact ⟨ht, by simpa using hc⟩

/-- The in-memory store keeps the contract of `DeleteTag`. -/
theorem memStore_contract : DeleteTagContract memStore := by
  intro s d
  have hany : s.tags.any (tagMatches d) = true ↔
      ∃ t ∈ s.tags, t.CreatorID = d.CreatorID ∧ t.Name = d.Name := by
    simp only [List.any_eq_true, tagMatches, Bool.and_eq_true, decide_eq_true_eq]
    constructor
    · rintro ⟨t, ht, h1, h2⟩
      exact ⟨t, ht, h2, h1⟩
    · rintro ⟨t, ht, h1, h2⟩
      exact ⟨t, ht, h2, h1⟩
  constructor
  · intro h
    rw [ownsTag_memStore, ← hany] at h
    refine ⟨⟨Code.NotFound, "tag not found"⟩, ?_, rfl⟩
    simp only [memStore, h]
    rfl
  · intro h
    have h' := h
    rw [ownsTag_memStore, ← hany] at h'
    have hdel : memStore.DeleteTag s d =
        (none, { s with
          tags := s.tags.filter (fun t => !tagMatches d t)
          calls := s.calls ++ [.deleteTag d] }) := by
      simp only [memStore, h']
      rfl
    rw [hdel]
    refine ⟨rfl, ?_⟩
    rw [ownsTag_memStore]
    rintro ⟨t, ht, hc, hn⟩
    simp only [List.mem_filter, tagMatches, Bool.not_eq_true', Bool.and_eq_false_iff,
      decide_eq_false_iff_not] at ht
    rcases ht.2 with h1 | h1
    · exact h1 hn
    · exact h1 hc

/-- C8. Over a store that keeps the contract of `DeleteTag`, for a non-empty
name: deleting a name the caller does not own is answered with 404; deleting a
name the caller owns is answered with 200, and a `GET /tag` of that caller on
the state that results does not list the name. On any store, a `DeleteTag`
error whose code is not not-found is answered with 500. -/
theorem postTagDelete_contract (st : Store σ) (hst : DeleteTagContract st) (user : User)
    (tagDelete : TagDelete) (s : σ) (hname : tagDelete.Name ≠ "") :
    (¬ ownsTag st s user.ID tagDelete.Name →
        (postTagDelete st user (.ok tagDelete) s).1.status = 404) ∧
      (ownsTag st s user.ID tagDelete.Name →
        (postTagDelete st user (.ok tagDelete) s).1.status = 200 ∧
        ∀ names, getTag st user (postTagDelete st user (.ok tagDelete) s).2 =
            .json StatusOK (composeResponse (.strs names)) →
          tagDelete.Name ∉ names) ∧
      (∀ (st' : Store σ) (err : Error),
        (st'.DeleteTag s ⟨tagDelete.Name, user.ID⟩).1 = some err →
        ErrorCode err ≠ Code.NotFound →
        (postTagDelete st' user (.ok tagDelete) s).1.status = 500) := by
  refine ⟨?_, ?_, ?_⟩
  · intro hown
    obtain ⟨err, herr, hcode⟩ := (hst s ⟨tagDelete.Name, user.ID⟩).1 hown
    rcases hres : st.DeleteTag s ⟨tagDelete.Name, user.ID⟩ with ⟨r, s1⟩
    rw [hres] at herr
    simp only at herr
    subst herr
    simp [postTagDelete, hname, hres, hcode, Response.status, StatusNotFound]
  · intro hown
    obtain ⟨hnone, hafter⟩ := (hst s ⟨tagDelete.Name, user.ID⟩).2 hown
    rcases hres : st.DeleteTag s ⟨tagDelete.Name, user.ID⟩ with ⟨r, s1⟩
    rw [hres] at hnone hafter
    simp only at hnone hafter
    subst hnone
    have hpost : postTagDelete st user (.ok tagDelete) s = (.json StatusOK (.bool true), s1) := by
      simp [postTagDelete, hname, hres]
    rw [hpost]
    refine ⟨rfl, ?_⟩
    intro names hget hmem
    apply hafter
    unfold getTag at hget
    cases hfind : st.FindTagList s1 ⟨user.ID⟩ with
    | error e => simp [hfind] at hget
    | ok tagList =>
      simp only [hfind, Response.json.injEq, true_and, composeResponse, Json.obj.injEq,
        Json.strs.injEq] at hget
      exact ⟨tagList, hfind, by rw [← tagNames_eq_map, hget]; exact hmem⟩
  · intro st' err herr hcode
    rcases hres : st'.DeleteTag s ⟨tagDelete.Name, user.ID⟩ with ⟨r, s1⟩
    rw [hres] at herr
    simp only at herr
    subst herr
    simp [postTagDelete, hname, hres, hcode, Response.status, StatusInternalServerError]

/-! ## The creator of a store call: claim C10 -/

/-- C10. For a body with a non-empty name, the in-memory store records that
`POST /tag` calls `UpsertTag`, and `POST /tag/delete` calls `DeleteTag`, with
the name of the body and the ID of the session user as creator, whatever
creator the decoded body holds; and on every store two bodies with the same
name get the same response and the same next state. -/
theorem store_call_creator_is_session_user (st : Store σ)
    (marshal : ActivityTagCreatePayload → Except Error String) (user : User)
    (b1 b2 : TagUpsert) (d1 d2 : TagDelete) (s : σ) (ms : MemState)
    (hb : b1.Name ≠ "") (hd : d1.Name ≠ "") :
    (∃ rest, (postTag memStore marshal user (.ok b1) ms).2.calls =
        ms.calls ++ StoreCall.upsertTag ⟨b1.Name, user.ID⟩ :: rest) ∧
      (postTagDelete memStore user (.ok d1) ms).2.calls =
        ms.calls ++ [StoreCall.deleteTag ⟨d1.Name, user.ID⟩] ∧
      (b2.Name = b1.Name →
        postTag st marshal user (.ok b2) s = postTag st marshal user (.ok b1) s) ∧
      (d2.Name = d1.Name →
        postTagDelete st user (.ok d2) s = postTagDelete st user (.ok d1) s) := by
  refine ⟨?_, ?_, ?_, ?_⟩
  · cases hm : marshal ⟨b1.Name⟩ with
    | error e =>
      exact ⟨[], by simp [postTag, createTagCreateActivity, hb, memStore, hm, Wrap]⟩
    | ok payload =>
      exact ⟨[StoreCall.createActivity
        ⟨user.ID, ActivityType.ActivityTagCreate, ActivityLevel.ActivityInfo, payload⟩],
        by simp [postTag, createTagCreateActivity, hb, memStore, hm]⟩
  · by_cases hany : ms.tags.any (tagMatches ⟨d1.Name, user.ID⟩) = true
    · simp only [postTagDelete, hd, memStore, hany, ↓reduceIte]
    · simp only [postTagDelete, hd, memStore, hany, ↓reduceIte, ErrorCode]
      rfl
  · intro h
    simp only [postTag, h]
  · intro h
    simp only [postTagDelete, h]

/-! ## The claims on the populated in-memory store -/

theorem getTagSuggestion_excludes_existing_witness :
    memStore.FindMemoList demoState ⟨some 1, some "#", some RowStatus.Normal⟩ =
        .ok [⟨1, RowStatus.Normal, "x #b #a"⟩, ⟨1, RowStatus.Normal, "#c #a and #work"⟩] ∧
      memStore.FindTagList demoState ⟨1⟩ = .ok [⟨"c", 1⟩, ⟨"work", 1⟩] ∧
      ∃ names, getTagSuggestion memStore ⟨1⟩ demoState =
          .json StatusOK (composeResponse (.strs names)) ∧
        ∀ n ∈ names, ∀ tag ∈ ([⟨"c", 1⟩, ⟨"work", 1⟩] : List Tag), tag.Name ≠ n :=
  ⟨rfl, rfl,
    getTagSuggestion_excludes_existing memStore ⟨1⟩ demoState
      [⟨1, RowStatus.Normal, "x #b #a"⟩, ⟨1, RowStatus.Normal, "#c #a and #work"⟩]
      [⟨"c", 1⟩, ⟨"work", 1⟩] (rfl) (rfl)⟩

theorem getTagSuggestion_exact_witness :
    memStore.FindMemoList demoState ⟨some 1, some "#", some RowStatus.Normal⟩ =
        .ok [⟨1, RowStatus.Normal, "x #b #a"⟩, ⟨1, RowStatus.Normal, "#c #a and #work"⟩] ∧
      memStore.FindTagList demoState ⟨1⟩ = .ok [⟨"c", 1⟩, ⟨"work", 1⟩] ∧
      getTagSuggestion memStore ⟨1⟩ demoState =
        .json StatusOK (composeResponse (.strs ["a", "b"])) ∧
      ∃ names, getTagSuggestion memStore ⟨1⟩ demoState =
          .json StatusOK (composeResponse (.strs names)) ∧
        names.Sorted (· < ·) ∧
        (∀ t, t ∈ names ↔
          (∃ memo ∈ ([⟨1, RowStatus.Normal, "x #b #a"⟩,
                ⟨1, RowStatus.Normal, "#c #a and #work"⟩] : List Memo),
              t ∈ findTagListFromMemoContent memo.Content) ∧
            ∀ tag ∈ ([⟨"c", 1⟩, ⟨"work", 1⟩] : List Tag), tag.Name ≠ t) ∧
        (∀ l : List String, l.Sorted (· < ·) →
          (∀ t, t ∈ l ↔
            (∃ memo ∈ ([⟨1, RowStatus.Normal, "x #b #a"⟩,
                  ⟨1, RowStatus.Normal, "#c #a and #work"⟩] : List Memo),
                t ∈ findTagListFromMemoContent memo.Content) ∧
              ∀ tag ∈ ([⟨"c", 1⟩, ⟨"work", 1⟩] : List Tag), tag.Name ≠ t) → l = names) ∧
        (∀ (s' : MemState) (memoList' : List Memo),
          memStore.FindMemoList s' ⟨some 1, some "#", some RowStatus.Normal⟩ =
            .ok memoList' →
          memStore.FindTagList s' ⟨1⟩ = .ok [⟨"c", 1⟩, ⟨"work", 1⟩] →
          memoList'.Perm [⟨1, RowStatus.Normal, "x #b #a"⟩,
            ⟨1, RowStatus.Normal, "#c #a and #work"⟩] →
          getTagSuggestion memStore ⟨1⟩ s' = getTagSuggestion memStore ⟨1⟩ demoState) :=
  ⟨rfl, rfl, by decide,
    getTagSuggestion_exact memStore ⟨1⟩ demoState
      [⟨1, RowStatus.Normal, "x #b #a"⟩, ⟨1, RowStatus.Normal, "#c #a and #work"⟩]
      [⟨"c", 1⟩, ⟨"work", 1⟩] rfl rfl⟩

theorem getTag_names_in_store_order_witness :
    memStore.FindTagList demoState ⟨1⟩ = .ok [⟨"c", 1⟩, ⟨"work", 1⟩] ∧
      getTag memStore ⟨1⟩ demoState =
        .json StatusOK (composeResponse (.strs ["c", "work"])) ∧
      (["c", "work"] : List String).length = 2 ∧
      (([⟨"c", 1⟩, ⟨"work", 1⟩] : List Tag) = [] →
        getTag memStore ⟨1⟩ demoState = .json StatusOK (composeResponse (.strs []))) :=
  ⟨rfl,
    getTag_names_in_store_order memStore ⟨1⟩ demoState [⟨"c", 1⟩, ⟨"work", 1⟩] (rfl)⟩

theorem postTag_empty_name_rejected_witness :
    (⟨"", 5⟩ : TagUpsert).Name = "" ∧
      postTag memStore marshalPayload ⟨1⟩ (.ok ⟨"", 5⟩) demoState =
        (.httpError StatusBadRequest "Tag name shouldn't be empty" none, demoState) ∧
      (postTag memStore marshalPayload ⟨1⟩ (.ok ⟨"", 5⟩) demoState).1.status = 400 ∧
      (postTag memStore marshalPayload ⟨1⟩ (.ok ⟨"", 5⟩) emptyState).2 = emptyState :=
  ⟨rfl,
    postTag_empty_name_rejected memStore marshalPayload ⟨1⟩ ⟨"", 5⟩ demoState emptyState rfl⟩

theorem postTagDelete_contract_witness :
    DeleteTagContract memStore ∧ (⟨"work", 0⟩ : TagDelete).Name ≠ "" ∧
      ((¬ ownsTag memStore demoState 1 "work" →
          (postTagDelete memStore ⟨1⟩ (.ok ⟨"work", 0⟩) demoState).1.status = 404) ∧
        (ownsTag memStore demoState 1 "work" →
          (postTagDelete memStore ⟨1⟩ (.ok ⟨"work", 0⟩) demoState).1.status = 200 ∧
          ∀ names, getTag memStore ⟨1⟩
                (postTagDelete memStore ⟨1⟩ (.ok ⟨"work", 0⟩) demoState).2 =
              .json StatusOK (composeResponse (.strs names)) →
            "work" ∉ names) ∧
        (∀ (st' : Store MemState) (err : Error),
          (st'.DeleteTag demoState ⟨"work", 1⟩).1 = some err →
          ErrorCode err ≠ Code.NotFound →
          (postTagDelete st' ⟨1⟩ (.ok ⟨"work", 0⟩) demoState).1.status = 500)) :=
  ⟨memStore_contract, by decide,
    postTagDelete_contract memStore memStore_contract ⟨1⟩ ⟨"work", 0⟩ demoState (by decide)⟩

theorem store_call_creator_is_session_user_witness :
    (⟨"a", 7⟩ : TagUpsert).Name ≠ "" ∧ (⟨"work", 9⟩ : TagDelete).Name ≠ "" ∧
      ((∃ rest, (postTag memStore marshalPayload ⟨1⟩ (.ok ⟨"a", 7⟩) demoState).2.calls =
          demoState.calls ++ StoreCall.upsertTag ⟨"a", 1⟩ :: rest) ∧
        (postTagDelete memStore ⟨1⟩ (.ok ⟨"work", 9⟩) demoState).2.calls =
          demoState.calls ++ [StoreCall.deleteTag ⟨"work", 1⟩] ∧
        ((⟨"a", 8⟩ : TagUpsert).Name = (⟨"a", 7⟩ : TagUpsert).Name →
          postTag memStore marshalPayload ⟨1⟩ (.ok ⟨"a", 8⟩) demoState =
            postTag memStore marshalPayload ⟨1⟩ (.ok ⟨"a", 7⟩) demoState) ∧
        ((⟨"work", 3⟩ : TagDelete).Name = (⟨"work", 9⟩ : TagDelete).Name →
          postTagDelete memStore ⟨1⟩ (.ok ⟨"work", 3⟩) demoState =
            postTagDelete memStore ⟨1⟩ (.ok ⟨"work", 9⟩) demoState)) :=
  ⟨by decide, by decide,
    store_call_creator_is_session_user memStore marshalPayload ⟨1⟩ ⟨"a", 7⟩ ⟨"a", 8⟩
      ⟨"work", 9⟩ ⟨"work", 3⟩ demoState demoState (by decide) (by decide)⟩

end Memos
